import Mathlib

/-!
Shallow embedding of src/interp.rs: a circular buffer with a shadow
region (RollingBuffer) and a polyphase windowed-sinc oversampling
interpolator (InterpF), together with theorems about the claims of the
specification.

Machine floating point (f32/f64) is idealised as the real numbers; the
generic frame type with its FrameAccumulator capability (defined in a
source file not available here) is modelled from the spec as a tuple of
per-channel scalars with elementwise scaled accumulation.
-/

namespace EburInterp

/-- Source constant TAPS (interp.rs line 26): total tap count and the
declared length of the backing array of every RollingBuffer. -/
def TAPS : Nat := 48

/-- Source constant ALMOST_ZERO (interp.rs line 25): the epsilon guarding
the removable singularity of the sinc. -/
noncomputable def ALMOST_ZERO : ℝ := 0.000001

/-- RollingBuffer (interp.rs lines 32-36): a circular buffer with a
shadow region. The source stores a fixed array `buf: [T; TAPS]`; the
storage is modelled as a total function on indices, the declared array
length is recorded by `RollingBuffer.capacity`, and the in-bounds facts
for every unchecked access are proved separately. -/
structure RollingBuffer (T : Type) (N : Nat) where
  buf : Nat → T
  position : Nat

/-- The length of the backing array `buf: [T; TAPS]` of a
RollingBuffer with view length N: it is TAPS, independent of N. -/
def RollingBuffer.capacity (_N : Nat) : Nat := TAPS

/-- The state built by RollingBuffer::new (interp.rs lines 39-45) after
its assertion has passed: a default-filled array with position = N. -/
def RollingBuffer.mkFresh (T : Type) (N : Nat) [Inhabited T] : RollingBuffer T N :=
  { buf := fun _ => default, position := N }

/-- RollingBuffer::new (interp.rs lines 39-45): asserts `N * 2 <= TAPS`
(modelled as returning none on assertion failure), then produces the
default-filled buffer with position = N. -/
def RollingBuffer.new (T : Type) (N : Nat) [Inhabited T] : Option (RollingBuffer T N) :=
  if N * 2 ≤ TAPS then some (RollingBuffer.mkFresh T N) else none

/-- RollingBuffer::push_front (interp.rs lines 47-60): decrement the
cursor (wrapping from 0 to N - 1), then write the value both at the new
cursor and at its shadow slot N places ahead. -/
def RollingBuffer.push_front {T : Type} {N : Nat} (b : RollingBuffer T N) (v : T) :
    RollingBuffer T N :=
  let pos := if b.position = 0 then N - 1 else b.position - 1
  { buf := fun i => if i = pos ∨ i = pos + N then v else b.buf i, position := pos }

/-- RollingBuffer's AsRef impl (interp.rs lines 63-70): the contiguous
window of N elements starting at the cursor. -/
def RollingBuffer.as_ref {T : Type} {N : Nat} (b : RollingBuffer T N) : Fin N → T :=
  fun k => b.buf (b.position + k)

/-- A read of the view in explicit state-passing form: `as_ref` borrows
the buffer immutably, so the state component is returned unchanged. -/
def RollingBuffer.readOp {T : Type} {N : Nat} (b : RollingBuffer T N) :
    (Fin N → T) × RollingBuffer T N :=
  (b.as_ref, b)

/-- Push a chronological list of values, oldest first. -/
def RollingBuffer.pushSeq {T : Type} {N : Nat} (b : RollingBuffer T N) (l : List T) :
    RollingBuffer T N :=
  l.foldl (fun b v => b.push_front v) b

/-- The buffer obtained from a fresh one by pushing the given history,
listed most recent first (the head is the last value pushed). -/
def RollingBuffer.pushedRev (T : Type) (N : Nat) [Inhabited T] (hist : List T) :
    RollingBuffer T N :=
  hist.foldr (fun v b => b.push_front v) (RollingBuffer.mkFresh T N)

/-- The states of a RollingBuffer reachable from construction by any
sequence of push_front calls. -/
inductive RollingBuffer.Reachable (T : Type) (N : Nat) [Inhabited T] :
    RollingBuffer T N → Prop
  | init : RollingBuffer.Reachable T N (RollingBuffer.mkFresh T N)
  | push (b : RollingBuffer T N) (v : T) :
      RollingBuffer.Reachable T N b → RollingBuffer.Reachable T N (b.push_front v)

/-- The invariant tying a buffer state to the history of pushed values
(most recent first): cursor below or at N, the window at the cursor
shows the history, and each primary slot agrees with its shadow copy. -/
def RollingBuffer.Matches {T : Type} {N : Nat} [Inhabited T]
    (b : RollingBuffer T N) (hist : List T) : Prop :=
  b.position ≤ N ∧
  (∀ k : Fin N, b.as_ref k = hist.getD k default) ∧
  (∀ j : Nat, j < N → b.buf (j + N) = b.buf j)

/-- Modelled from the spec: the frame abstraction of src/utils.rs (not
available here) is a fixed-width tuple of per-channel scalar samples;
the machine scalar is idealised as an element of a commutative ring. -/
abbrev Frame (K : Type) (C : Nat) : Type := Fin C → K

/-- Modelled from the spec: the Default/zero value of a frame is the
all-zero frame (zero-initialization). -/
def zeroFrame (K : Type) (C : Nat) [Zero K] : Frame K C := fun _ => 0

/-- Modelled from the spec: the Default value of a frame (used to fill
the fresh rolling buffer and to initialize output frames) is the
all-zero frame. -/
instance frameInhabited {K : Type} {C : Nat} [Zero K] : Inhabited (Frame K C) :=
  ⟨zeroFrame K C⟩

/-- Modelled from the spec: FrameAccumulator::scale_add of src/utils.rs
(not available here) is elementwise scaled accumulation,
`frame += coefficient * other_frame`. -/
def scale_add {K : Type} {C : Nat} [CommRing K] (dest src : Frame K C) (coeff : K) :
    Frame K C :=
  fun i => dest i + coeff * src i

/-- Scale every channel of a frame by the scalar k. -/
def smulFrame {K : Type} {C : Nat} [CommRing K] (k : K) (f : Frame K C) : Frame K C :=
  fun i => k * f i

/-- The frame all of whose channels carry the same constant sample. -/
def constFrame {C : Nat} (c : ℝ) : Frame ℝ C := fun _ => c

/-- InterpF (interp.rs lines 72-76): the polyphase interpolator, holding
the ACTIVE_TAPS x FACTOR coefficient matrix and the rolling buffer of
the last ACTIVE_TAPS input frames. -/
structure InterpF (AT F : Nat) (K : Type) (C : Nat) where
  filter : Fin AT → Fin F → K
  buffer : RollingBuffer (Frame K C) AT

/-- One coefficient of the kernel computed by InterpF::new (interp.rs
lines 95-110) at flat index j: Hanning window of length
(TAPS + 1) - 1 = 48 times the sinc at m = j - window / 2, with the
removable singularity guarded by ALMOST_ZERO. -/
noncomputable def mkFilterCoeff (FACTOR : Nat) (j : Nat) : ℝ :=
  let window : ℝ := ((TAPS + 1 - 1 : Nat) : ℝ)
  let w : ℝ := 0.5 * (1 - Real.cos (2 * Real.pi * (j : ℝ) / window))
  let m : ℝ := (j : ℝ) - window / 2
  if ALMOST_ZERO < |m| then
    w * Real.sin (m * Real.pi / (FACTOR : ℝ)) / (m * Real.pi / (FACTOR : ℝ))
  else w

/-- The full kernel of InterpF::new: the coefficients are produced by
enumerating the FACTOR-wide rows in order, so the entry in row a and
column p has flat index j = a * FACTOR + p. -/
noncomputable def InterpF.mkFilter (AT FACTOR : Nat) : Fin AT → Fin FACTOR → ℝ :=
  fun a p => mkFilterCoeff FACTOR ((a : Nat) * FACTOR + (p : Nat))

/-- InterpF::new (interp.rs lines 91-116): asserts
ACTIVE_TAPS * FACTOR == TAPS, then builds the kernel and a fresh
rolling buffer (whose own constructor asserts N * 2 <= TAPS); assertion
failure is modelled as none. -/
noncomputable def InterpF.new (AT F C : Nat) : Option (InterpF AT F ℝ C) :=
  if AT * F = TAPS then
    (RollingBuffer.new (Frame ℝ C) AT).map (fun b => ⟨InterpF.mkFilter AT F, b⟩)
  else none

/-- InterpF::interpolate (interp.rs lines 118-133): push the frame into
the rolling buffer, then accumulate every output phase by scaled
accumulation of the buffered frames against the coefficient rows,
starting from default-initialized output frames. -/
def InterpF.interpolate {AT F : Nat} {K : Type} {C : Nat} [CommRing K]
    (s : InterpF AT F K C) (frame : Frame K C) :
    InterpF AT F K C × (Fin F → Frame K C) :=
  let buffer := s.buffer.push_front frame
  let buf := buffer.as_ref
  let output : Fin F → Frame K C :=
    Fin.foldl AT (fun out a => fun p => scale_add (out p) (buf a) (s.filter a p))
      (fun _ => zeroFrame K C)
  ({ filter := s.filter, buffer := buffer }, output)

/-- InterpF::reset (interp.rs lines 135-137): replace the rolling buffer
with a freshly constructed one; the filter is untouched. -/
def InterpF.reset {AT F : Nat} {K : Type} {C : Nat} [Inhabited K]
    (s : InterpF AT F K C) : InterpF AT F K C :=
  { filter := s.filter, buffer := RollingBuffer.mkFresh (Frame K C) AT }

/-- Feed a chronological list of input frames through the interpolator,
collecting the produced output-frame groups in order. -/
def InterpF.runList {AT F : Nat} {K : Type} {C : Nat} [CommRing K] :
    InterpF AT F K C → List (Frame K C) →
      InterpF AT F K C × List (Fin F → Frame K C)
  | s, [] => (s, [])
  | s, f :: rest =>
    let r := InterpF.interpolate s f
    let rr := InterpF.runList r.1 rest
    (rr.1, r.2 :: rr.2)

/-- Scale every stored frame of a rolling buffer, keeping the cursor. -/
def scaleBuf {K : Type} {C N : Nat} [CommRing K] (k : K)
    (b : RollingBuffer (Frame K C) N) : RollingBuffer (Frame K C) N :=
  { buf := fun i => smulFrame k (b.buf i), position := b.position }

/-- A concrete three-push state of a two-slot rolling buffer, used to
exhibit the failure of the full-view shadow equality. -/
def c5buf : RollingBuffer ℕ 2 :=
  (((RollingBuffer.mkFresh ℕ 2).push_front 1).push_front 2).push_front 3

/-- A concrete interpolator state over rational scalars. -/
def w1s : InterpF 1 1 ℚ 1 :=
  { filter := fun _ _ => 2, buffer := RollingBuffer.mkFresh (Frame ℚ 1) 1 }

/-- A concrete one-channel rational frame. -/
def w1f : Frame ℚ 1 := fun _ => 3

/- ------------------------------------------------------------------ -/
/- Theorems.                                                           -/
/- ------------------------------------------------------------------ -/

theorem push_front_position {T : Type} {N : Nat} (b : RollingBuffer T N) (v : T) :
    (b.push_front v).position = if b.position = 0 then N - 1 else b.position - 1 := rfl

theorem push_front_buf {T : Type} {N : Nat} (b : RollingBuffer T N) (v : T) (i : Nat) :
    (b.push_front v).buf i =
      if i = (b.push_front v).position ∨ i = (b.push_front v).position + N then v
      else b.buf i := rfl

theorem as_ref_apply {T : Type} {N : Nat} (b : RollingBuffer T N) (k : Fin N) :
    b.as_ref k = b.buf (b.position + k) := rfl

theorem matches_fresh (T : Type) (N : Nat) [Inhabited T] :
    (RollingBuffer.mkFresh T N).Matches [] := by
  refine ⟨le_refl N, fun k => ?_, fun j _ => rfl⟩
  simp [RollingBuffer.mkFresh, RollingBuffer.as_ref]

theorem matches_push {T : Type} {N : Nat} [Inhabited T] (hN : 1 ≤ N)
    {b : RollingBuffer T N} {hist : List T} (h : b.Matches hist) (v : T) :
    (b.push_front v).Matches (v :: hist) := by
  obtain ⟨hpos, hview, hshadow⟩ := h
  have hcase : (b.position = 0 ∧ (b.push_front v).position = N - 1) ∨
      (1 ≤ b.position ∧ (b.push_front v).position = b.position - 1) := by
    rw [push_front_position]
    by_cases h0 : b.position = 0
    · exact Or.inl ⟨h0, if_pos h0⟩
    · exact Or.inr ⟨by omega, if_neg h0⟩
  have hpos' : (b.push_front v).position < N := by
    rcases hcase with ⟨_, hp⟩ | ⟨_, hp⟩ <;> omega
  refine ⟨le_of_lt hpos', ?_, ?_⟩
  · rintro ⟨kv, hk⟩
    rw [as_ref_apply]
    simp only [Fin.val_mk]
    match kv, hk with
    | 0, hk =>
      rw [Nat.add_zero, push_front_buf, if_pos (Or.inl rfl)]
      simp
    | kk + 1, hk =>
      rcases hcase with ⟨h0, hp⟩ | ⟨h1, hp⟩
      · -- wrap: new cursor is N - 1, the read lands in the shadow region
        have hidx : (b.push_front v).position + (kk + 1) = kk + N := by omega
        rw [hidx, push_front_buf, if_neg (by omega), hshadow kk (by omega)]
        have hv := hview ⟨kk, by omega⟩
        rw [as_ref_apply] at hv
        simp only [Fin.val_mk] at hv
        rw [h0, Nat.zero_add] at hv
        rw [hv]
        simp
      · -- no wrap: new cursor is position - 1
        have hidx : (b.push_front v).position + (kk + 1) = b.position + kk := by omega
        rw [hidx, push_front_buf, if_neg (by omega)]
        have hv := hview ⟨kk, by omega⟩
        rw [as_ref_apply] at hv
        simp only [Fin.val_mk] at hv
        rw [hv]
        simp
  · intro j hj
    by_cases hjp : j = (b.push_front v).position
    · rw [push_front_buf, if_pos (Or.inr (by omega)), push_front_buf,
        if_pos (Or.inl hjp)]
    · rw [push_front_buf, if_neg (by omega), push_front_buf, if_neg (by omega)]
      exact hshadow j hj

theorem matches_pushedRev (T : Type) (N : Nat) [Inhabited T] (hN : 1 ≤ N)
    (hist : List T) : (RollingBuffer.pushedRev T N hist).Matches hist := by
  induction hist with
  | nil => exact matches_fresh T N
  | cons v rest ih => exact matches_push hN ih v

theorem reachable_iff {T : Type} {N : Nat} [Inhabited T] (b : RollingBuffer T N) :
    RollingBuffer.Reachable T N b ↔ ∃ hist : List T, b = RollingBuffer.pushedRev T N hist := by
  constructor
  · intro h
    induction h with
    | init => exact ⟨[], rfl⟩
    | push b v _ ih =>
      obtain ⟨hist, rfl⟩ := ih
      exact ⟨v :: hist, rfl⟩
  · rintro ⟨hist, rfl⟩
    induction hist with
    | nil => exact RollingBuffer.Reachable.init
    | cons v rest ih => exact RollingBuffer.Reachable.push _ v ih

theorem reachable_matches {T : Type} {N : Nat} [Inhabited T] (hN : 1 ≤ N)
    {b : RollingBuffer T N} (hb : RollingBuffer.Reachable T N b) :
    ∃ hist : List T, b = RollingBuffer.pushedRev T N hist ∧ b.Matches hist := by
  obtain ⟨hist, rfl⟩ := (reachable_iff b).1 hb
  exact ⟨hist, rfl, matches_pushedRev T N hN hist⟩

theorem position_le_of_reachable {T : Type} {N : Nat} [Inhabited T] (hN : 1 ≤ N)
    {b : RollingBuffer T N} (hb : RollingBuffer.Reachable T N b) : b.position ≤ N := by
  obtain ⟨hist, _, hm⟩ := reachable_matches hN hb
  exact hm.1

theorem position_push_lt {T : Type} {N : Nat} (hN : 1 ≤ N) (b : RollingBuffer T N)
    (hble : b.position ≤ N) (v : T) : (b.push_front v).position < N := by
  rw [push_front_position]
  split
  · omega
  · omega

theorem new_eq_some {T : Type} {N : Nat} [Inhabited T] {b : RollingBuffer T N}
    (h : RollingBuffer.new T N = some b) :
    N * 2 ≤ TAPS ∧ b = RollingBuffer.mkFresh T N := by
  by_cases hc : N * 2 ≤ TAPS
  · rw [RollingBuffer.new, if_pos hc] at h
    exact ⟨hc, (Option.some.inj h).symm⟩
  · rw [RollingBuffer.new, if_neg hc] at h
    exact absurd h (by simp)

theorem pushSeq_eq_pushedRev {T : Type} {N : Nat} [Inhabited T] (l : List T) :
    (RollingBuffer.mkFresh T N).pushSeq l = RollingBuffer.pushedRev T N l.reverse := by
  rw [RollingBuffer.pushedRev, List.foldr_reverse]
  rfl

theorem getD_reverse_fin {T : Type} [Inhabited T] (vs : List T) (N : Nat)
    (hlen : vs.length = N) (k : Fin N) :
    vs.reverse.getD (k : Nat) default = vs.getD (N - 1 - (k : Nat)) default := by
  have hk1 : (k : Nat) < vs.reverse.length := by
    rw [List.length_reverse, hlen]
    exact k.isLt
  have hk2 : N - 1 - (k : Nat) < vs.length := by
    have := k.isLt
    omega
  rw [List.getD_eq_getElem _ _ hk1, List.getD_eq_getElem _ _ hk2,
    List.getElem_reverse]
  congr 1
  have := k.isLt
  omega

/-- Claim C3: for every N >= 1, pushing N values v1..vN into a freshly
constructed RollingBuffer yields, via as_ref, exactly the array
[vN, ..., v1] (most recent first), and a read returns the state
unchanged, so repeated reads without intervening pushes return the
identical array. -/
theorem as_ref_after_n_pushes (T : Type) [Inhabited T] (N : Nat) (hN : 1 ≤ N)
    (b0 : RollingBuffer T N) (hb0 : RollingBuffer.new T N = some b0)
    (vs : List T) (hlen : vs.length = N) :
    (∀ k : Fin N, (b0.pushSeq vs).as_ref k = vs.getD (N - 1 - (k : Nat)) default) ∧
    ((b0.pushSeq vs).readOp.2 = b0.pushSeq vs) ∧
    ((b0.pushSeq vs).readOp.2.readOp.1 = (b0.pushSeq vs).readOp.1) := by
  obtain ⟨-, rfl⟩ := new_eq_some hb0
  refine ⟨fun k => ?_, rfl, rfl⟩
  rw [pushSeq_eq_pushedRev]
  have hm := matches_pushedRev T N hN vs.reverse
  rw [hm.2.1 k]
  exact getD_reverse_fin vs N hlen k

/-- Claim C3 witness: pushing [10, 20] into a fresh two-slot buffer
shows the view [20, 10] and read as a pure state-preserving operation. -/
theorem as_ref_after_n_pushes_witness :
    (1 ≤ 2 ∧ RollingBuffer.new ℕ 2 = some (RollingBuffer.mkFresh ℕ 2) ∧
      ([10, 20] : List ℕ).length = 2) ∧
    ((RollingBuffer.mkFresh ℕ 2).pushSeq [10, 20]).as_ref ⟨0, by decide⟩ = 20 ∧
    ((RollingBuffer.mkFresh ℕ 2).pushSeq [10, 20]).readOp.2
      = (RollingBuffer.mkFresh ℕ 2).pushSeq [10, 20] := by
  have h := as_ref_after_n_pushes ℕ 2 (by decide) (RollingBuffer.mkFresh ℕ 2) rfl
    [10, 20] (by decide)
  exact ⟨⟨by decide, rfl, by decide⟩, h.1 ⟨0, by decide⟩, h.2.1⟩

/-- Claim C4: for N >= 1 with the construction-time invariant
N * 2 <= TAPS, every reachable state keeps position + N <= TAPS, so the
N view slots starting at position and both slots written by a further
push lie inside the 48-slot backing array. -/
theorem access_in_bounds (T : Type) [Inhabited T] (N : Nat) (hN : 1 ≤ N)
    (hcap : N * 2 ≤ TAPS) (b : RollingBuffer T N)
    (hb : RollingBuffer.Reachable T N b) :
    b.position + N ≤ TAPS ∧
    (∀ k : Fin N, b.position + (k : Nat) < TAPS) ∧
    (∀ v : T, (b.push_front v).position < TAPS ∧
      (b.push_front v).position + N < TAPS) := by
  have hpos : b.position ≤ N := position_le_of_reachable hN hb
  have hT : TAPS = 48 := rfl
  refine ⟨by omega, fun k => ?_, fun v => ?_⟩
  · have := k.isLt
    omega
  · have hlt : (b.push_front v).position < N := position_push_lt hN b hpos v
    omega

/-- Claim C4 witness: the invariant instantiated at a concrete
reachable two-slot buffer state. -/
theorem access_in_bounds_witness :
    (1 ≤ 2 ∧ 2 * 2 ≤ TAPS) ∧
    ((RollingBuffer.mkFresh ℕ 2).push_front 5).position + 2 ≤ TAPS := by
  have h := access_in_bounds ℕ 2 (by decide) (by decide)
    ((RollingBuffer.mkFresh ℕ 2).push_front 5)
    (RollingBuffer.Reachable.push _ 5 RollingBuffer.Reachable.init)
  exact ⟨⟨by decide, by decide⟩, h.1⟩

/-- Claim C5 counterexample: after pushing 1, 2, 3 into a two-slot
buffer the cursor is 1 and index 2 lies in the view range [1, 3), but
buf[2] = 2 while its claimed shadow buf[2 + 2] is still 0: the shadow
equality does not hold for every index of the view range. -/
theorem shadow_full_view_false :
    RollingBuffer.Reachable ℕ 2 c5buf ∧
    c5buf.position = 1 ∧
    (c5buf.position ≤ 2 ∧ 2 < c5buf.position + 2) ∧
    c5buf.buf 2 = 2 ∧ c5buf.buf (2 + 2) = 0 ∧
    ¬ (c5buf.buf 2 = c5buf.buf (2 + 2)) := by
  refine ⟨?_, by decide, ⟨by decide, by decide⟩, by decide, by decide, by decide⟩
  exact RollingBuffer.Reachable.push _ 3
    (RollingBuffer.Reachable.push _ 2
      (RollingBuffer.Reachable.push _ 1 RollingBuffer.Reachable.init))

/-- Claim C5 (amended): in every reachable state the N slots starting at
the cursor hold the last N pushed values most recent first, and the
shadow equality holds for the primary region: buf[j] = buf[j + N] for
every j < N (every push writes both copies); view slots at physical
index at least N are themselves shadow copies, for which the equality
need not hold. -/
theorem shadow_primary_region (T : Type) [Inhabited T] (N : Nat) (hN : 1 ≤ N)
    (b : RollingBuffer T N) (hb : RollingBuffer.Reachable T N b) :
    (∀ j : Nat, j < N → b.buf (j + N) = b.buf j) ∧
    (∃ hist : List T, b = RollingBuffer.pushedRev T N hist ∧
      ∀ k : Fin N, b.as_ref k = hist.getD (k : Nat) default) := by
  obtain ⟨hist, rfl, hm⟩ := reachable_matches hN hb
  exact ⟨hm.2.2, hist, rfl, hm.2.1⟩

/-- Claim C5 (amended) witness: the primary-region shadow equality at a
concrete reachable state. -/
theorem shadow_primary_region_witness :
    (1 ≤ 2) ∧ c5buf.buf (0 + 2) = c5buf.buf 0 := by
  have h := shadow_primary_region ℕ 2 (by decide) c5buf
    (RollingBuffer.Reachable.push _ 3
      (RollingBuffer.Reachable.push _ 2
        (RollingBuffer.Reachable.push _ 1 RollingBuffer.Reachable.init)))
  exact ⟨by decide, h.1 0 (by decide)⟩

/-- Claim C9 counterexample: a RollingBuffer with N = 12 is validly
constructible, yet its backing array holds TAPS = 48 slots, not
2 * 12 = 24, and the freshly constructed state has cursor position = 12,
violating position < N. -/
theorem slots_cursor_claim_false :
    RollingBuffer.new ℕ 12 = some (RollingBuffer.mkFresh ℕ 12) ∧
    RollingBuffer.capacity 12 = 48 ∧
    ¬ (RollingBuffer.capacity 12 = 2 * 12) ∧
    (RollingBuffer.mkFresh ℕ 12).position = 12 ∧
    ¬ ((RollingBuffer.mkFresh ℕ 12).position < 12) := by
  exact ⟨rfl, rfl, by decide, rfl, by decide⟩

/-- Claim C9 (amended): every RollingBuffer holds TAPS = 48 storage
slots regardless of N (construction checks N * 2 <= 48 so the 2 * N
logically used slots fit), and the cursor satisfies position <= N in
every reachable state, with position < N after every push; position = N
holds only in the freshly constructed state. -/
theorem slots_cursor_amended (T : Type) [Inhabited T] (N : Nat) (hN : 1 ≤ N)
    (b : RollingBuffer T N) (hb : RollingBuffer.Reachable T N b) :
    RollingBuffer.capacity N = TAPS ∧
    b.position ≤ N ∧
    (∀ v : T, (b.push_front v).position < N) := by
  have hpos := position_le_of_reachable hN hb
  exact ⟨rfl, hpos, fun v => position_push_lt hN b hpos v⟩

/-- Claim C9 (amended) witness: instantiated at the fresh one-slot
buffer. -/
theorem slots_cursor_amended_witness :
    (1 ≤ 1) ∧ (RollingBuffer.mkFresh ℕ 1).position ≤ 1 := by
  have h := slots_cursor_amended ℕ 1 (by decide) (RollingBuffer.mkFresh ℕ 1)
    RollingBuffer.Reachable.init
  exact ⟨by decide, h.2.1⟩

theorem foldl_scale_add_apply {K : Type} {C : Nat} [CommRing K] :
    ∀ (n : Nat) (vals : Fin n → Frame K C) (coeffs : Fin n → K)
      (init : Frame K C) (i : Fin C),
      (Fin.foldl n (fun x a => scale_add x (vals a) (coeffs a)) init) i
        = init i + ∑ a : Fin n, coeffs a * vals a i := by
  intro n
  induction n with
  | zero =>
    intro vals coeffs init i
    simp
  | succ n ih =>
    intro vals coeffs init i
    simp only [Fin.foldl_succ]
    rw [ih (fun a => vals a.succ) (fun a => coeffs a.succ)
      (scale_add init (vals 0) (coeffs 0)) i]
    rw [Fin.sum_univ_succ]
    simp only [scale_add]
    ring

theorem foldl_phase_apply {K : Type} {F C : Nat} [CommRing K] :
    ∀ (n : Nat) (vals : Fin n → Frame K C) (coeffs : Fin n → Fin F → K)
      (init : Fin F → Frame K C) (p : Fin F),
      (Fin.foldl n (fun out a => fun q => scale_add (out q) (vals a) (coeffs a q)) init) p
        = Fin.foldl n (fun x a => scale_add x (vals a) (coeffs a p)) (init p) := by
  intro n
  induction n with
  | zero =>
    intro vals coeffs init p
    simp
  | succ n ih =>
    intro vals coeffs init p
    simp only [Fin.foldl_succ]
    rw [ih (fun a => vals a.succ) (fun a => coeffs a.succ)
      (fun q => scale_add (init q) (vals 0) (coeffs 0 q)) p]

theorem interpolate_fst {AT F : Nat} {K : Type} {C : Nat} [CommRing K]
    (s : InterpF AT F K C) (frame : Frame K C) :
    (s.interpolate frame).1 = ⟨s.filter, s.buffer.push_front frame⟩ := rfl

theorem interpolate_snd_apply {AT F : Nat} {K : Type} {C : Nat} [CommRing K]
    (s : InterpF AT F K C) (frame : Frame K C) (p : Fin F) (i : Fin C) :
    ((s.interpolate frame).2 p) i
      = ∑ a : Fin AT, s.filter a p * (s.buffer.push_front frame).as_ref a i := by
  show (Fin.foldl AT
      (fun out a => fun q =>
        scale_add (out q) ((s.buffer.push_front frame).as_ref a) (s.filter a q))
      (fun _ => zeroFrame K C) p) i = _
  rw [foldl_phase_apply, foldl_scale_add_apply]
  simp [zeroFrame]

theorem as_ref_push_zero {T : Type} {N : Nat} (hN : 0 < N)
    (b : RollingBuffer T N) (v : T) : (b.push_front v).as_ref ⟨0, hN⟩ = v := by
  rw [as_ref_apply]
  simp only [Fin.val_mk, Nat.add_zero]
  rw [push_front_buf, if_pos (Or.inl rfl)]

/-- Claim C1: interpolate first pushes the frame into the rolling buffer
as the most recent element, returns FACTOR output frames, and output
phase p is the scaled-accumulation dot product of coefficient column p
with the ACTIVE_TAPS buffered frames starting from the default (zero)
frame; the a-th view entry is the a-th most recent frame, frames not yet
pushed counting as the Default value during the initial fill. -/
theorem interpolate_spec {AT F : Nat} {K : Type} {C : Nat} [CommRing K]
    (s : InterpF AT F K C) (frame : Frame K C) :
    (s.interpolate frame).1.buffer = s.buffer.push_front frame ∧
    (∀ p : Fin F, ∀ i : Fin C, ((s.interpolate frame).2 p) i
      = ∑ a : Fin AT, s.filter a p * (s.buffer.push_front frame).as_ref a i) ∧
    (1 ≤ AT → ∀ l : List (Frame K C),
      s.buffer = (RollingBuffer.mkFresh (Frame K C) AT).pushSeq l →
      ∀ a : Fin AT,
        (s.buffer.push_front frame).as_ref a
          = (frame :: l.reverse).getD (a : Nat) default) := by
  refine ⟨rfl, fun p i => interpolate_snd_apply s frame p i, fun hAT l hbuf a => ?_⟩
  rw [hbuf, pushSeq_eq_pushedRev]
  have hm := matches_pushedRev (Frame K C) AT hAT (frame :: l.reverse)
  exact hm.2.1 a

/-- Claim C1 witness: the view/history equation instantiated at a
concrete one-tap rational interpolator state. -/
theorem interpolate_spec_witness :
    ((w1s.interpolate w1f).1.buffer = w1s.buffer.push_front w1f) ∧
    ((1 : Nat) ≤ 1 ∧ w1s.buffer = (RollingBuffer.mkFresh (Frame ℚ 1) 1).pushSeq []) ∧
    (w1s.buffer.push_front w1f).as_ref ⟨0, by decide⟩
      = (w1f :: ([] : List (Frame ℚ 1)).reverse).getD 0 default := by
  have h := interpolate_spec w1s w1f
  exact ⟨h.1, ⟨by decide, rfl⟩, h.2.2 (by decide) [] rfl ⟨0, by decide⟩⟩

/-- Claim C7: InterpF::new aborts (yields no interpolator) whenever
ACTIVE_TAPS * FACTOR differs from TAPS = 48, and every interpolator it
does produce satisfies ACTIVE_TAPS * FACTOR = 48. -/
theorem new_checks_taps (AT F C : Nat) (s : InterpF AT F ℝ C) :
    (AT * F ≠ TAPS → InterpF.new AT F C = none) ∧
    (InterpF.new AT F C = some s → AT * F = TAPS) := by
  constructor
  · intro h
    rw [InterpF.new, if_neg h]
  · intro h
    by_cases hc : AT * F = TAPS
    · exact hc
    · rw [InterpF.new, if_neg hc] at h
      exact absurd h (by simp)

/-- Claim C7 witness: construction fails at 5 * 4 and succeeds at
12 * 4 = 48. -/
theorem new_checks_taps_witness :
    (5 * 4 ≠ TAPS ∧ InterpF.new 5 4 1 = none) ∧
    (InterpF.new 12 4 1
        = some ⟨InterpF.mkFilter 12 4, RollingBuffer.mkFresh (Frame ℝ 1) 12⟩ ∧
      12 * 4 = TAPS) := by
  refine ⟨⟨by decide, ?_⟩, ⟨?_, ?_⟩⟩
  · exact (new_checks_taps 5 4 1
      ⟨InterpF.mkFilter 5 4, RollingBuffer.mkFresh (Frame ℝ 1) 5⟩).1 (by decide)
  · rfl
  · exact (new_checks_taps 12 4 1
      ⟨InterpF.mkFilter 12 4, RollingBuffer.mkFresh (Frame ℝ 1) 12⟩).2 rfl

theorem interp_new_eq_some {AT F C : Nat} {s : InterpF AT F ℝ C}
    (h : InterpF.new AT F C = some s) :
    AT * F = TAPS ∧ AT * 2 ≤ TAPS ∧
    s = ⟨InterpF.mkFilter AT F, RollingBuffer.mkFresh (Frame ℝ C) AT⟩ := by
  by_cases hc : AT * F = TAPS
  · rw [InterpF.new, if_pos hc] at h
    by_cases hc2 : AT * 2 ≤ TAPS
    · rw [RollingBuffer.new, if_pos hc2] at h
      exact ⟨hc, hc2, (Option.some.inj h).symm⟩
    · rw [RollingBuffer.new, if_neg hc2] at h
      exact absurd h (by simp)
  · rw [InterpF.new, if_neg hc] at h
    exact absurd h (by simp)

theorem runList_filter {AT F : Nat} {K : Type} {C : Nat} [CommRing K] :
    ∀ (l : List (Frame K C)) (s : InterpF AT F K C),
      (s.runList l).1.filter = s.filter := by
  intro l
  induction l with
  | nil => intro s; rfl
  | cons f rest ih =>
    intro s
    show ((s.interpolate f).1.runList rest).1.filter = s.filter
    rw [ih]
    rfl

theorem rb_ext {T : Type} {N : Nat} {b1 b2 : RollingBuffer T N}
    (h1 : b1.buf = b2.buf) (h2 : b1.position = b2.position) : b1 = b2 := by
  cases b1
  cases b2
  cases h1
  cases h2
  rfl

theorem if_ext {AT F : Nat} {K : Type} {C : Nat} {s1 s2 : InterpF AT F K C}
    (h1 : s1.filter = s2.filter) (h2 : s1.buffer = s2.buffer) : s1 = s2 := by
  cases s1
  cases s2
  cases h1
  cases h2
  rfl

/-- Claim C8: reset reinitializes the rolling buffer to the fresh state
while leaving the coefficient matrix untouched (the kernel is never
mutated by interpolate or reset), so after any run the reset state
equals the newly constructed interpolator and subsequent runs coincide
with those of a fresh instance. -/
theorem reset_spec (AT F C : Nat) (s0 : InterpF AT F ℝ C)
    (h : InterpF.new AT F C = some s0) (l : List (Frame ℝ C)) :
    (∀ f : Frame ℝ C,
      ((s0.runList l).1.interpolate f).1.filter = (s0.runList l).1.filter) ∧
    ((s0.runList l).1.reset.filter = (s0.runList l).1.filter) ∧
    ((s0.runList l).1.reset = s0) ∧
    (∀ l2 : List (Frame ℝ C), (s0.runList l).1.reset.runList l2 = s0.runList l2) := by
  obtain ⟨-, -, rfl⟩ := interp_new_eq_some h
  have hreset : ((InterpF.mk (InterpF.mkFilter AT F)
      (RollingBuffer.mkFresh (Frame ℝ C) AT)).runList l).1.reset
      = InterpF.mk (InterpF.mkFilter AT F) (RollingBuffer.mkFresh (Frame ℝ C) AT) := by
    refine if_ext ?_ rfl
    show ((InterpF.mk (InterpF.mkFilter AT F)
      (RollingBuffer.mkFresh (Frame ℝ C) AT)).runList l).1.filter = _
    rw [runList_filter]
  exact ⟨fun f => rfl, rfl, hreset, fun l2 => by rw [hreset]⟩

/-- Claim C8 witness: reset after an empty run of the concrete
12-tap, factor-4 interpolator restores the freshly constructed value. -/
theorem reset_spec_witness :
    InterpF.new 12 4 1
      = some ⟨InterpF.mkFilter 12 4, RollingBuffer.mkFresh (Frame ℝ 1) 12⟩ ∧
    ((⟨InterpF.mkFilter 12 4, RollingBuffer.mkFresh (Frame ℝ 1) 12⟩ :
        InterpF 12 4 ℝ 1).runList []).1.reset
      = ⟨InterpF.mkFilter 12 4, RollingBuffer.mkFresh (Frame ℝ 1) 12⟩ := by
  exact ⟨rfl, (reset_spec 12 4 1 _ rfl []).2.2.1⟩

theorem scaleBuf_as_ref {K : Type} {C N : Nat} [CommRing K] (k : K)
    (b : RollingBuffer (Frame K C) N) (a : Fin N) :
    (scaleBuf k b).as_ref a = smulFrame k (b.as_ref a) := rfl

theorem scaleBuf_push {K : Type} {C N : Nat} [CommRing K] (k : K)
    (b : RollingBuffer (Frame K C) N) (f : Frame K C) :
    scaleBuf k (b.push_front f) = (scaleBuf k b).push_front (smulFrame k f) := by
  refine rb_ext (funext fun i => ?_) rfl
  show smulFrame k ((b.push_front f).buf i)
    = ((scaleBuf k b).push_front (smulFrame k f)).buf i
  rw [push_front_buf b f i, push_front_buf (scaleBuf k b) (smulFrame k f) i]
  have hp : ((scaleBuf k b).push_front (smulFrame k f)).position
      = (b.push_front f).position := rfl
  rw [hp]
  by_cases hc : i = (b.push_front f).position ∨ i = (b.push_front f).position + N
  · rw [if_pos hc, if_pos hc]
  · rw [if_neg hc, if_neg hc]
    rfl

theorem interpolate_smul {AT F : Nat} {K : Type} {C : Nat} [CommRing K]
    (filter : Fin AT → Fin F → K) (k : K) (b : RollingBuffer (Frame K C) AT)
    (f : Frame K C) :
    (InterpF.mk filter (scaleBuf k b)).interpolate (smulFrame k f)
      = (InterpF.mk filter (scaleBuf k (b.push_front f)),
         fun p => smulFrame k (((InterpF.mk filter b).interpolate f).2 p)) := by
  refine Prod.ext ?_ ?_
  · rw [interpolate_fst]
    exact if_ext rfl (scaleBuf_push k b f).symm
  · funext p
    funext i
    rw [interpolate_snd_apply]
    show _ = smulFrame k (((InterpF.mk filter b).interpolate f).2 p) i
    have hr : ∀ a : Fin AT,
        ((scaleBuf k b).push_front (smulFrame k f)).as_ref a
          = smulFrame k ((b.push_front f).as_ref a) := by
      intro a
      rw [← scaleBuf_push, scaleBuf_as_ref]
    have hl : (∑ a : Fin AT,
        filter a p * ((scaleBuf k b).push_front (smulFrame k f)).as_ref a i)
        = k * ∑ a : Fin AT, filter a p * (b.push_front f).as_ref a i := by
      rw [Finset.mul_sum]
      refine Finset.sum_congr rfl fun a _ => ?_
      rw [hr a]
      show filter a p * (k * (b.push_front f).as_ref a i) = _
      ring
    rw [hl]
    show _ = k * ((InterpF.mk filter b).interpolate f).2 p i
    rw [interpolate_snd_apply]

theorem runList_cons {AT F : Nat} {K : Type} {C : Nat} [CommRing K]
    (s : InterpF AT F K C) (f : Frame K C) (rest : List (Frame K C)) :
    s.runList (f :: rest)
      = (((s.interpolate f).1.runList rest).1,
         (s.interpolate f).2 :: ((s.interpolate f).1.runList rest).2) := rfl

theorem runList_smul {AT F : Nat} {K : Type} {C : Nat} [CommRing K]
    (filter : Fin AT → Fin F → K) (k : K) :
    ∀ (l : List (Frame K C)) (b : RollingBuffer (Frame K C) AT),
      (InterpF.mk filter (scaleBuf k b)).runList (l.map (smulFrame k))
        = (InterpF.mk filter
            (scaleBuf k ((InterpF.mk filter b).runList l).1.buffer),
           ((InterpF.mk filter b).runList l).2.map
             (fun out => fun p => smulFrame k (out p))) := by
  intro l
  induction l with
  | nil =>
    intro b
    rfl
  | cons f rest ih =>
    intro b
    have hmap : ((f :: rest).map (smulFrame k))
        = smulFrame k f :: rest.map (smulFrame k) := rfl
    rw [hmap, runList_cons, interpolate_smul]
    dsimp only
    rw [ih (b.push_front f), runList_cons, interpolate_fst]
    dsimp only
    rw [List.map_cons]

/-- Claim C10: interpolation is linear in the input. Scaling every
input frame of a run (from a fresh buffer, with any coefficient matrix)
by the scalar k scales, at every step, every output frame by k. -/
theorem interpolate_linear {AT F : Nat} {K : Type} {C : Nat} [CommRing K]
    (filter : Fin AT → Fin F → K) (k : K) (l : List (Frame K C)) :
    ((InterpF.mk filter (RollingBuffer.mkFresh (Frame K C) AT)).runList
        (l.map (smulFrame k))).2
      = ((InterpF.mk filter (RollingBuffer.mkFresh (Frame K C) AT)).runList l).2.map
          (fun out => fun p => smulFrame k (out p)) := by
  have hz : scaleBuf k (RollingBuffer.mkFresh (Frame K C) AT)
      = RollingBuffer.mkFresh (Frame K C) AT := by
    refine rb_ext (funext fun i => ?_) rfl
    show smulFrame k (zeroFrame K C) = zeroFrame K C
    funext j
    show k * 0 = 0
    exact mul_zero k
  have h := runList_smul filter k l (RollingBuffer.mkFresh (Frame K C) AT)
  rw [hz] at h
  rw [h]

theorem mkFilterCoeff_eq (F j : Nat) :
    mkFilterCoeff F j =
      if ALMOST_ZERO < |(j : ℝ) - 24| then
        (0.5 * (1 - Real.cos (2 * Real.pi * (j : ℝ) / 48)))
          * Real.sin (((j : ℝ) - 24) * Real.pi / (F : ℝ))
          / (((j : ℝ) - 24) * Real.pi / (F : ℝ))
      else 0.5 * (1 - Real.cos (2 * Real.pi * (j : ℝ) / 48)) := by
  have h48 : ((TAPS + 1 - 1 : Nat) : ℝ) = 48 := by norm_num [TAPS]
  simp only [mkFilterCoeff, h48]
  norm_num

theorem almost_zero_lt_abs_iff (j : Nat) :
    ALMOST_ZERO < |(j : ℝ) - 24| ↔ j ≠ 24 := by
  constructor
  · intro h hj
    rw [hj] at h
    norm_num [ALMOST_ZERO] at h
  · intro hj
    have hcast : (j : ℝ) - 24 = (((j : ℤ) - 24 : ℤ) : ℝ) := by push_cast; ring
    have hz : (1 : ℤ) ≤ |(j : ℤ) - 24| := Int.one_le_abs (by omega)
    have h1 : (1 : ℝ) ≤ |(j : ℝ) - 24| := by
      rw [hcast, ← Int.cast_abs]
      exact_mod_cast hz
    have h0 : ALMOST_ZERO < 1 := by norm_num [ALMOST_ZERO]
    exact lt_of_lt_of_le h0 h1

theorem one_le_abs_sub_24 (j : Nat) (hj : j ≠ 24) : (1 : ℝ) ≤ |(j : ℝ) - 24| := by
  have hcast : (j : ℝ) - 24 = (((j : ℤ) - 24 : ℤ) : ℝ) := by push_cast; ring
  have hz : (1 : ℤ) ≤ |(j : ℤ) - 24| := Int.one_le_abs (by omega)
  rw [hcast, ← Int.cast_abs]
  exact_mod_cast hz

/-- Claim C6: each coefficient at flat index j is the Hanning-windowed
sinc value: with window length 48, w = 0.5 * (1 - cos(2 pi j / 48)) and
m = j - 24, the coefficient is w * sin(m pi / FACTOR) / (m pi / FACTOR)
when |m| exceeds ALMOST_ZERO — which happens exactly when j is not 24 —
and w itself in the degenerate case, so the sinc division never sees a
near-zero denominator (|m| is at least 1 there); the entry in row a,
column p of the kernel carries flat index j = a * FACTOR + p, so output
phase p uses column p. -/
theorem coeff_formula (AT F : Nat) (hF : 1 ≤ F) (a : Fin AT) (p : Fin F) :
    InterpF.mkFilter AT F a p = mkFilterCoeff F ((a : Nat) * F + (p : Nat)) ∧
    (∀ j : Nat, (ALMOST_ZERO < |(j : ℝ) - 24| ↔ j ≠ 24)) ∧
    (∀ j : Nat, j ≠ 24 →
      mkFilterCoeff F j
          = (0.5 * (1 - Real.cos (2 * Real.pi * (j : ℝ) / 48)))
              * Real.sin (((j : ℝ) - 24) * Real.pi / (F : ℝ))
              / (((j : ℝ) - 24) * Real.pi / (F : ℝ)) ∧
        (1 : ℝ) ≤ |(j : ℝ) - 24| ∧
        ((j : ℝ) - 24) * Real.pi / (F : ℝ) ≠ 0) ∧
    (∀ j : Nat, j = 24 →
      mkFilterCoeff F j = 0.5 * (1 - Real.cos (2 * Real.pi * (j : ℝ) / 48))) := by
  refine ⟨rfl, almost_zero_lt_abs_iff, fun j hj => ?_, fun j hj => ?_⟩
  · refine ⟨?_, one_le_abs_sub_24 j hj, ?_⟩
    · rw [mkFilterCoeff_eq, if_pos ((almost_zero_lt_abs_iff j).2 hj)]
    · have hm : (j : ℝ) - 24 ≠ 0 := by
        have := one_le_abs_sub_24 j hj
        intro hc
        rw [hc] at this
        norm_num at this
      have hFne : (F : ℝ) ≠ 0 := Nat.cast_ne_zero.2 (by omega)
      exact div_ne_zero (mul_ne_zero hm Real.pi_ne_zero) hFne
  · rw [mkFilterCoeff_eq, if_neg]
    rw [hj]
    norm_num [ALMOST_ZERO]

/-- Claim C6 witness: the formula facts instantiated at the standard
12-tap, factor-4 kernel and flat index 0. -/
theorem coeff_formula_witness :
    (1 ≤ 4 ∧ (0 : Nat) ≠ 24) ∧
    InterpF.mkFilter 12 4 0 0 = mkFilterCoeff 4 (((0 : Fin 12) : Nat) * 4 + ((0 : Fin 4) : Nat)) ∧
    (((0 : Nat) : ℝ) - 24) * Real.pi / ((4 : Nat) : ℝ) ≠ 0 := by
  have h := coeff_formula 12 4 (by decide) 0 0
  exact ⟨⟨by decide, by decide⟩, h.1, (h.2.2.1 0 (by decide)).2.2⟩

theorem mkFilterCoeff_row_zero {F a t : Nat} (hF : 1 ≤ F) (ht : 24 = t * F)
    (ha : a ≠ t) : mkFilterCoeff F (a * F) = 0 := by
  have hj : a * F ≠ 24 := by
    intro hc
    rw [ht] at hc
    exact ha (Nat.eq_of_mul_eq_mul_right (by omega) hc)
  rw [mkFilterCoeff_eq, if_pos ((almost_zero_lt_abs_iff _).2 hj)]
  have hFne : (F : ℝ) ≠ 0 := Nat.cast_ne_zero.2 (by omega)
  have harg : (((a * F : Nat) : ℝ) - 24) * Real.pi / (F : ℝ)
      = (((a : ℤ) - (t : ℤ) : ℤ) : ℝ) * Real.pi := by
    have h24 : ((24 : ℝ)) = (t : ℝ) * (F : ℝ) := by exact_mod_cast ht
    push_cast
    rw [h24]
    field_simp
    ring
  rw [harg, Real.sin_int_mul_pi, mul_zero, zero_div]

theorem mkFilterCoeff_at_24 (F : Nat) : mkFilterCoeff F 24 = 1 := by
  rw [mkFilterCoeff_eq, if_neg (by norm_num [ALMOST_ZERO])]
  have harg : 2 * Real.pi * ((24 : Nat) : ℝ) / 48 = Real.pi := by
    push_cast
    ring
  rw [harg, Real.cos_pi]
  norm_num

theorem mkFilterCoeff_at_zero (F : Nat) : mkFilterCoeff F 0 = 0 := by
  rw [mkFilterCoeff_eq, if_pos ((almost_zero_lt_abs_iff 0).2 (by decide))]
  have harg : 2 * Real.pi * ((0 : Nat) : ℝ) / 48 = 0 := by
    push_cast
    ring
  rw [harg, Real.cos_zero]
  norm_num

theorem sum_col0_F4 : (∑ a : Fin 12, InterpF.mkFilter 12 4 a 0) = 1 := by
  rw [Finset.sum_eq_single_of_mem (⟨6, by norm_num⟩ : Fin 12) (Finset.mem_univ _)]
  · show mkFilterCoeff 4 (6 * 4 + 0) = 1
    exact mkFilterCoeff_at_24 4
  · intro a _ ha
    show mkFilterCoeff 4 ((a : Nat) * 4 + 0) = 0
    have h0 : (a : Nat) * 4 + 0 = (a : Nat) * 4 := rfl
    rw [h0]
    exact mkFilterCoeff_row_zero (by norm_num) rfl
      (fun h => ha (Fin.ext (by rw [h])))

theorem sum_col0_F2 : (∑ a : Fin 24, InterpF.mkFilter 24 2 a 0) = 1 := by
  rw [Finset.sum_eq_single_of_mem (⟨12, by norm_num⟩ : Fin 24) (Finset.mem_univ _)]
  · show mkFilterCoeff 2 (12 * 2 + 0) = 1
    exact mkFilterCoeff_at_24 2
  · intro a _ ha
    show mkFilterCoeff 2 ((a : Nat) * 2 + 0) = 0
    have h0 : (a : Nat) * 2 + 0 = (a : Nat) * 2 := rfl
    rw [h0]
    exact mkFilterCoeff_row_zero (by norm_num) rfl
      (fun h => ha (Fin.ext (by rw [h])))

theorem getD_replicate_const {α : Type} [Inhabited α] (c : α) (n k : Nat)
    (hk : k < n) : (List.replicate n c).getD k default = c := by
  have hlen : k < (List.replicate n c).length := by
    rw [List.length_replicate]
    exact hk
  rw [List.getD_eq_getElem _ _ hlen]
  exact List.getElem_replicate _ _

theorem dc_as_ref {AT : Nat} (hAT : 1 ≤ AT) (c : ℝ) (a : Fin AT) :
    ((RollingBuffer.pushedRev (Frame ℝ 1) AT
        (List.replicate AT (constFrame c))).push_front (constFrame c)).as_ref a
      = constFrame c := by
  have hpush : ((RollingBuffer.pushedRev (Frame ℝ 1) AT
      (List.replicate AT (constFrame c))).push_front (constFrame c))
      = RollingBuffer.pushedRev (Frame ℝ 1) AT
        (constFrame c :: List.replicate AT (constFrame c)) := rfl
  rw [hpush]
  have hm := matches_pushedRev (Frame ℝ 1) AT hAT
    (constFrame c :: List.replicate AT (constFrame c))
  rw [hm.2.1 a]
  have hrep : (constFrame c :: List.replicate AT (constFrame c) : List (Frame ℝ 1))
      = List.replicate (AT + 1) (constFrame c) := (List.replicate_succ _ _).symm
  rw [hrep]
  exact getD_replicate_const _ _ _ (by have := a.isLt; omega)

/-- Claim C2 counterexample: the instantiation ACTIVE_TAPS = 1,
FACTOR = 48 passes both construction assertions (1 * 48 = TAPS and
1 * 2 <= TAPS), yet coefficient column 0 sums to 0, not 1 (its only
tap has flat index 0, where the Hanning window vanishes), and with the
buffer full of the constant frame 1, output phase 0 of interpolate is
the zero frame, not the constant. -/
theorem unity_gain_exact_false :
    (1 * 48 = TAPS ∧
      InterpF.new 1 48 1
        = some ⟨InterpF.mkFilter 1 48, RollingBuffer.mkFresh (Frame ℝ 1) 1⟩) ∧
    (∑ a : Fin 1, InterpF.mkFilter 1 48 a 0) = 0 ∧
    ((0 : ℝ) ≠ 1) ∧
    (((InterpF.mk (InterpF.mkFilter 1 48)
        (RollingBuffer.pushedRev (Frame ℝ 1) 1
          (List.replicate 1 (constFrame 1)))).interpolate (constFrame 1)).2 0) 0
      = 0 := by
  have hc0 : InterpF.mkFilter 1 48 0 0 = 0 := by
    show mkFilterCoeff 48 (0 * 48 + 0) = 0
    exact mkFilterCoeff_at_zero 48
  refine ⟨⟨rfl, rfl⟩, ?_, by norm_num, ?_⟩
  · rw [Fin.sum_univ_one, hc0]
  · rw [interpolate_snd_apply, Fin.sum_univ_one]
    dsimp only
    rw [hc0, zero_mul]

theorem dc_phase0_of_sum {AT F : Nat} (hAT : 1 ≤ AT) (hF : 0 < F)
    (hsum : (∑ a : Fin AT, InterpF.mkFilter AT F a ⟨0, hF⟩) = 1) (c : ℝ) :
    ((InterpF.mk (InterpF.mkFilter AT F)
        (RollingBuffer.pushedRev (Frame ℝ 1) AT
          (List.replicate AT (constFrame c)))).interpolate (constFrame c)).2 ⟨0, hF⟩
      = constFrame c := by
  funext i
  rw [interpolate_snd_apply]
  have hv : ∀ a : Fin AT,
      ((RollingBuffer.pushedRev (Frame ℝ 1) AT
        (List.replicate AT (constFrame c))).push_front (constFrame c)).as_ref a
        = constFrame c := dc_as_ref hAT c
  have hs : (∑ a : Fin AT, InterpF.mkFilter AT F a ⟨0, hF⟩ *
      ((RollingBuffer.pushedRev (Frame ℝ 1) AT
        (List.replicate AT (constFrame c))).push_front (constFrame c)).as_ref a i)
      = (∑ a : Fin AT, InterpF.mkFilter AT F a ⟨0, hF⟩) * c := by
    rw [Finset.sum_mul]
    refine Finset.sum_congr rfl fun a _ => ?_
    rw [hv a]
    rfl
  rw [hs, hsum, one_mul]
  rfl

/-- Claim C2 (amended): for the standard instantiations (24 taps,
factor 2) and (12 taps, factor 4), coefficient column 0 sums exactly to
unity, and — for both instantiations — once the buffer is full of a
constant frame, output phase 0 of interpolate reproduces that constant
exactly; the unity/DC property does not extend to every valid
instantiation or every phase. -/
theorem unity_gain_phase0 :
    (∑ a : Fin 24, InterpF.mkFilter 24 2 a 0) = 1 ∧
    (∑ a : Fin 12, InterpF.mkFilter 12 4 a 0) = 1 ∧
    (∀ c : ℝ,
      ((InterpF.mk (InterpF.mkFilter 24 2)
          (RollingBuffer.pushedRev (Frame ℝ 1) 24
            (List.replicate 24 (constFrame c)))).interpolate (constFrame c)).2 0
        = constFrame c) ∧
    (∀ c : ℝ,
      ((InterpF.mk (InterpF.mkFilter 12 4)
          (RollingBuffer.pushedRev (Frame ℝ 1) 12
            (List.replicate 12 (constFrame c)))).interpolate (constFrame c)).2 0
        = constFrame c) := by
  refine ⟨sum_col0_F2, sum_col0_F4, fun c => ?_, fun c => ?_⟩
  · exact dc_phase0_of_sum (by norm_num) (by norm_num) sum_col0_F2 c
  · exact dc_phase0_of_sum (by norm_num) (by norm_num) sum_col0_F4 c

end EburInterp
